import Mathlib

/-!
# Verification of the ZCANT core (`zcant/core.pyx`)

Shallow embedding of the zero-cross signal core: the `ZeroCross` value
object with its slicing and windowing operations, the slope (`_slopes`)
and smoothing (`_smooth`) signal math, and the interval/notes logic of the
Anabat file writer.

Modelling choices:
* Python/NumPy double values are modelled by `FVal`: an exact rational
  together with the IEEE-754 special values `+inf`, `-inf` and `NaN`.
  Arithmetic on finite values is exact rational arithmetic (rounding is
  irrelevant to the sign/finiteness/clipping properties proved here);
  the special values follow IEEE semantics.  Signed zero is not
  distinguished (it does not affect any property proved below).
* `np.log2` is not given a concrete value table: `_slopes` takes the
  elementwise function as an explicit argument, and every theorem about
  `_slopes` holds for an arbitrary such function.
* The `ZeroCross` windowing logic only compares, subtracts and copies
  time values, so there the times/freqs/amplitudes are modelled directly
  as rationals.
* Python's `bisect.bisect` (= `bisect_right`) is modelled, on the sorted
  lists the `ZeroCross` invariant guarantees, as the count of elements
  `≤ x`; `l[a:b]` slicing with non-negative indices is drop-then-take;
  `np.insert(a, 0, v)` is cons, `np.append(a, v)` is append.
-/

namespace ZCANT

/-- IEEE-754 double model: exact finite rationals plus the special values. -/
inductive FVal : Type where
  | fin : ℚ → FVal
  | inf : FVal
  | ninf : FVal
  | nan : FVal
deriving DecidableEq, Repr

/-- The `np.isnan` test for a single value. -/
def FVal.isNan : FVal → Bool
  | .nan => true
  | _ => false

/-- IEEE addition (used by `np.cumsum`). -/
def FVal.add : FVal → FVal → FVal
  | .nan, _ => .nan
  | _, .nan => .nan
  | .inf, .ninf => .nan
  | .ninf, .inf => .nan
  | .inf, _ => .inf
  | _, .inf => .inf
  | .ninf, _ => .ninf
  | _, .ninf => .ninf
  | .fin a, .fin b => .fin (a + b)

/-- IEEE subtraction (used by `np.diff` and the cumulative-sum window). -/
def FVal.sub : FVal → FVal → FVal
  | .nan, _ => .nan
  | _, .nan => .nan
  | .inf, .inf => .nan
  | .ninf, .ninf => .nan
  | .inf, _ => .inf
  | .ninf, _ => .ninf
  | .fin _, .inf => .ninf
  | .fin _, .ninf => .inf
  | .fin a, .fin b => .fin (a - b)

/-- IEEE division; `x/0` yields a signed infinity and `0/0` yields NaN
(signed zero of the denominator is not modelled). -/
def FVal.div : FVal → FVal → FVal
  | .nan, _ => .nan
  | _, .nan => .nan
  | .inf, .inf => .nan
  | .inf, .ninf => .nan
  | .ninf, .inf => .nan
  | .ninf, .ninf => .nan
  | .inf, .fin b => if b < 0 then .ninf else .inf
  | .ninf, .fin b => if b < 0 then .inf else .ninf
  | .fin _, .inf => .fin 0
  | .fin _, .ninf => .fin 0
  | .fin a, .fin b =>
    if b = 0 then (if a = 0 then .nan else if 0 < a then .inf else .ninf)
    else .fin (a / b)

/-- The `np.abs` function for a single value. -/
def FVal.abs : FVal → FVal
  | .fin a => .fin |a|
  | .inf => .inf
  | .ninf => .inf
  | .nan => .nan

/-- IEEE `>` comparison: any comparison with NaN is false. -/
def FVal.gt : FVal → FVal → Bool
  | .nan, _ => false
  | _, .nan => false
  | .inf, .inf => false
  | .inf, _ => true
  | .ninf, _ => false
  | .fin _, .inf => false
  | .fin _, .ninf => true
  | .fin a, .fin b => decide (b < a)

/-- The elementwise NaN fixup `arr[np.isnan(arr)] = 0.0` applied to one value. -/
def nanZero (v : FVal) : FVal :=
  if v.isNan then FVal.fin 0 else v

/-- NumPy `np.diff`: `diffF l = [l₁ - l₀, l₂ - l₁, ...]`. -/
def diffF (l : List FVal) : List FVal :=
  List.zipWith FVal.sub l.tail l

/-- The `y_octaves` array of `_slopes`: `y` itself when `not np.any(y)`
(all values zero), otherwise `np.log2(y)` with NaN entries (only NaN — a
`-inf` from `log2(0)` stays) replaced by `0.0`. -/
def yOctaves (log2 : FVal → FVal) (y : List FVal) : List FVal :=
  if y.all (fun v => decide (v = FVal.fin 0)) then y
  else (y.map log2).map nanZero

/-- The quotient `np.diff(y_octaves) / np.diff(x)`, elementwise. -/
def slopesRaw (log2 : FVal → FVal) (x y : List FVal) : List FVal :=
  List.zipWith FVal.div (diffF (yOctaves log2 y)) (diffF x)

/-- The pad `np.append(slopes, slopes[-1])`.  Here `getLastD` stands for Python's
`slopes[-1]`, which would raise `IndexError` on an empty array; that path is
unreachable for the equal-length inputs the function is specified on. -/
def slopesPadded (log2 : FVal → FVal) (x y : List FVal) : List FVal :=
  slopesRaw log2 x y ++ [(slopesRaw log2 x y).getLastD (FVal.fin 0)]

/-- The function `core._slopes(x, y, max_slope)`: the guards for empty / single-dot
inputs, then absolute value, the `slopes[slopes > max_slope] = 0.0` clip,
and the final `slopes[np.isnan(slopes)] = 0.0` fixup.  `log2` is the
elementwise `np.log2`, kept abstract (see the header). -/
def _slopes (log2 : FVal → FVal) (x y : List FVal) (max_slope : FVal) : List FVal :=
  if x.length = 0 ∨ y.length = 0 then []
  else if x.length = 1 then [FVal.fin 0]
  else
    (((slopesPadded log2 x y).map FVal.abs).map
      (fun v => if v.gt max_slope then FVal.fin 0 else v)).map nanZero

/-- The function `core._smooth(slopes)` with its hard-coded window size 3.
`np.insert(a, -1, v)` inserts `v` in front of the last element. -/
def _smooth (slopes : List FVal) : List FVal :=
  if slopes.length ≤ 3 then List.replicate slopes.length (FVal.fin 0)
  else
    let s := slopes.map nanZero
    let cumsum := List.scanl FVal.add (FVal.fin 0) s
    let smoothed := List.zipWith (fun a b => FVal.div (FVal.sub a b) (FVal.fin 3))
      (cumsum.drop 3) (cumsum.take (cumsum.length - 3))
    let smoothed := smoothed.headD (FVal.fin 0) :: smoothed
    smoothed.dropLast ++ [smoothed.getLastD (FVal.fin 0), smoothed.getLastD (FVal.fin 0)]

/-! ## The `ZeroCross` value object and its windowing -/

/-- A `ZeroCross`: parallel time / frequency arrays with optional amplitudes
(the `metadata` mapping is opaque to all numeric logic and is not modelled
here; the writer's use of its `note1` field is modelled by `writerNotes`). -/
structure ZeroCross : Type where
  times : List ℚ
  freqs : List ℚ
  amplitudes : Option (List ℚ)
deriving DecidableEq, Repr

/-- Constructor `ZeroCross.__init__`: the length checks raise `ValueError` on mismatch,
modelled as `Except.error`; only matching shapes produce a value. -/
def ZeroCross.make (times freqs : List ℚ) (amplitudes : Option (List ℚ)) :
    Except String ZeroCross :=
  if times.length ≠ freqs.length then
    Except.error "times and freqs disagree"
  else
    match amplitudes with
    | some amps =>
      if times.length ≠ amps.length then
        Except.error "times and amplitudes disagree"
      else
        Except.ok ⟨times, freqs, some amps⟩
    | none => Except.ok ⟨times, freqs, none⟩

/-- Python's `bisect.bisect` (= `bisect_right`): on the sorted lists guaranteed by the
`ZeroCross` invariant it returns the number of elements `≤ x`. -/
def bisect (l : List ℚ) (x : ℚ) : ℕ :=
  l.countP (fun t => decide (t ≤ x))

/-- Python slicing `l[a:b]` for `0 ≤ a ≤ b`. -/
def pySlice (l : List ℚ) (a b : ℕ) : List ℚ :=
  (l.drop a).take (b - a)

/-- Slicing `ZeroCross.__getitem__` with a `[a:b]` slice: amplitudes are sliced only
when present; metadata is shared. -/
def ZeroCross.sliceZC (zc : ZeroCross) (a b : ℕ) : ZeroCross :=
  { times := pySlice zc.times a b
    freqs := pySlice zc.freqs a b
    amplitudes := zc.amplitudes.map (fun l => pySlice l a b) }

/-- The branch selection of `ZeroCross.windowed`: `(window_from, window_to)`
for the normal, window-too-big, and EOF cases.  `getLastD _ 0` stands for
`times[-1]`, only consulted when the list is non-empty. -/
def ZeroCross.windowBounds (zc : ZeroCross) (start duration : ℚ) : ℕ × ℕ :=
  let lastT := zc.times.getLastD 0
  if duration ≤ lastT - start then
    (bisect zc.times start, bisect zc.times (start + duration))
  else if lastT ≤ duration then
    (0, zc.times.length - 1)
  else
    (bisect zc.times (lastT - duration), zc.times.length - 1)

/-- The first edge fixup of `windowed`: prepend a synthetic dot at `start`
(`np.insert(..., 0, start)` on times, freqs and, when present, amplitudes)
when the window is empty or begins after `start`. -/
def padLeft (zc : ZeroCross) (start : ℚ) : ZeroCross :=
  if zc.times.length = 0 ∨ start < zc.times.headD 0 then
    { times := start :: zc.times
      freqs := start :: zc.freqs
      amplitudes := zc.amplitudes.map (fun l => start :: l) }
  else zc

/-- The second edge fixup of `windowed`: append a synthetic trailing dot at
`endT` with frequency `0` (and amplitude `0`) when the window ends early. -/
def padRight (zc : ZeroCross) (endT : ℚ) : ZeroCross :=
  if zc.times.getLastD 0 < endT then
    { times := zc.times ++ [endT]
      freqs := zc.freqs ++ [0]
      amplitudes := zc.amplitudes.map (fun l => l ++ [0]) }
  else zc

/-- The operation `ZeroCross.windowed(start, duration)`. -/
def ZeroCross.windowed (zc : ZeroCross) (start duration : ℚ) : ZeroCross :=
  if zc.times.length < 2 then zc
  else
    let b := zc.windowBounds start duration
    padRight (padLeft (zc.sliceZC b.1 b.2) start) (start + duration)

/-! ## The Anabat writer's header-notes and interval logic -/

/-- The note-field selection of `AnabatFileWriteThread.run`: Python's `if note1:`
is string non-emptiness. -/
def writerNotes (note1 : String) : String × String :=
  if note1 = "" then ("Myotisoft ZCANT", "")
  else (note1, "Myotisoft ZCANT")

/-- The cast `astype(int)` on a double: C truncation toward zero. -/
def ratTrunc (q : ℚ) : ℤ :=
  if 0 ≤ q then ⌊q⌋ else ⌈q⌉

/-- NumPy `np.diff` on exact rationals. -/
def diffQ (l : List ℚ) : List ℚ :=
  List.zipWith (fun a b => a - b) l.tail l

/-- The interval body the writer emits: `times * 1000000`, `np.diff`,
`astype(int)`. -/
def writerIntervals (times : List ℚ) : List ℤ :=
  (diffQ (times.map (fun t => t * 1000000))).map ratTrunc

/-- Modelled from the spec's words (§4.4): the successive differences of the
time sequence, converted to microsecond units, each truncated toward zero. -/
def specIntervals (times : List ℚ) : List ℤ :=
  ((diffQ times).map (fun d => d * 1000000)).map ratTrunc

/-- Modelled from the spec's words (C4): replace every non-finite value
(NaN, `+inf`, `-inf`) with `0.0`. -/
def zeroNonFinite (l : List FVal) : List FVal :=
  l.map (fun v => match v with | .fin q => .fin q | _ => .fin 0)

/-! ## Signal-math theorems -/

/-- C8: `_smooth` on an input of length at most the window size 3 returns
the all-zero sequence of the same length. -/
theorem smooth_short_all_zero (l : List FVal) (h : l.length ≤ 3) :
    _smooth l = List.replicate l.length (FVal.fin 0) := by
  unfold _smooth
  rw [if_pos h]

/-- Witness for `smooth_short_all_zero` at the concrete input `[1.0, NaN]`. -/
theorem smooth_short_all_zero_witness :
    [FVal.fin 1, FVal.nan].length ≤ 3 ∧
      _smooth [FVal.fin 1, FVal.nan] = List.replicate 2 (FVal.fin 0) :=
  ⟨by decide, smooth_short_all_zero [FVal.fin 1, FVal.nan] (by decide)⟩

theorem nanZero_idem (v : FVal) : nanZero (nanZero v) = nanZero v := by
  cases v <;> rfl

/-- C4 (amended): `_smooth` replaces every NaN input with `0.0` before
averaging, so NaN inputs do not contribute to any output — formally the
result is unchanged when the NaN entries are zeroed beforehand.  (The
infinities are *not* replaced; see `smooth_nonfinite_counterexample`.) -/
theorem smooth_nan_replaced (l : List FVal) :
    _smooth (l.map nanZero) = _smooth l := by
  have hmm : (l.map nanZero).map nanZero = l.map nanZero := by
    rw [List.map_map]
    exact List.map_congr_left fun v _ => nanZero_idem v
  unfold _smooth
  rw [List.length_map]
  by_cases h : l.length ≤ 3
  · rw [if_pos h, if_pos h]
  · rw [if_neg h, if_neg h, hmm]

/-- C4 counterexample: on input `[+inf, 1, 1, 1, 1]`, `_smooth` does not
replace the non-finite `+inf` with `0.0` — the output differs from the
output on the sanitized input (and in fact still contains `+inf`). -/
theorem smooth_nonfinite_counterexample :
    _smooth [FVal.inf, FVal.fin 1, FVal.fin 1, FVal.fin 1, FVal.fin 1] ≠
      _smooth (zeroNonFinite [FVal.inf, FVal.fin 1, FVal.fin 1, FVal.fin 1, FVal.fin 1]) := by
  decide

/-- C5: constructing a `ZeroCross` whose `times`/`freqs` lengths differ, or
whose `amplitudes` is present with a length differing from `times`, always
fails with the shape-mismatch error and produces no value. -/
theorem make_rejects_shape_mismatch (times freqs : List ℚ) (amplitudes : Option (List ℚ))
    (h : times.length ≠ freqs.length ∨
      ∃ amps, amplitudes = some amps ∧ times.length ≠ amps.length) :
    ∃ msg, ZeroCross.make times freqs amplitudes = Except.error msg := by
  by_cases hf : times.length = freqs.length
  · rcases h with h | ⟨amps, ha, hlen⟩
    · exact absurd hf h
    · subst ha
      refine ⟨"times and amplitudes disagree", ?_⟩
      unfold ZeroCross.make
      rw [if_neg (not_not_intro hf)]
      exact if_pos hlen
  · refine ⟨"times and freqs disagree", ?_⟩
    unfold ZeroCross.make
    rw [if_pos hf]

/-- Witness for `make_rejects_shape_mismatch`: one time value, no
frequencies. -/
theorem make_rejects_shape_mismatch_witness :
    ∃ msg, ZeroCross.make [0] [] none = Except.error msg :=
  make_rejects_shape_mismatch [0] [] none (Or.inl (by decide))

theorem yOctaves_length (log2 : FVal → FVal) (y : List FVal) :
    (yOctaves log2 y).length = y.length := by
  unfold yOctaves
  split
  · rfl
  · rw [List.length_map, List.length_map]

theorem diffF_length (l : List FVal) : (diffF l).length = l.length - 1 := by
  rw [diffF, List.length_zipWith, List.length_tail]
  omega

theorem slopesPadded_length (log2 : FVal → FVal) (x y : List FVal)
    (hxy : x.length = y.length) (hlen : 2 ≤ x.length) :
    (slopesPadded log2 x y).length = x.length := by
  rw [slopesPadded, List.length_append, slopesRaw, List.length_zipWith,
    diffF_length, diffF_length, yOctaves_length, List.length_singleton]
  omega

/-- Every value surviving the `abs` / clip / NaN-fixup pipeline of `_slopes`
is a finite rational in `[0, M]` (for `0 ≤ M`), whatever the raw slopes were. -/
theorem slopes_pipeline_bounded (M : ℚ) (hM : 0 ≤ M) (L : List FVal) :
    ∀ v ∈ ((L.map FVal.abs).map
        (fun w => if w.gt (FVal.fin M) then FVal.fin 0 else w)).map nanZero,
      ∃ q, v = FVal.fin q ∧ 0 ≤ q ∧ q ≤ M := by
  intro v hv
  rw [List.map_map, List.map_map] at hv
  obtain ⟨u, hu, rfl⟩ := List.mem_map.1 hv
  simp only [Function.comp_apply]
  cases u with
  | fin a =>
    simp only [FVal.abs, FVal.gt]
    by_cases h : M < |a|
    · rw [if_pos (by simpa using h)]
      exact ⟨0, rfl, le_refl 0, hM⟩
    · rw [if_neg (by simpa using h)]
      exact ⟨|a|, rfl, abs_nonneg a, le_of_not_lt h⟩
  | inf => exact ⟨0, by simp [FVal.abs, FVal.gt, nanZero, FVal.isNan], le_refl 0, hM⟩
  | ninf => exact ⟨0, by simp [FVal.abs, FVal.gt, nanZero, FVal.isNan], le_refl 0, hM⟩
  | nan => exact ⟨0, by simp [FVal.abs, FVal.gt, nanZero, FVal.isNan], le_refl 0, hM⟩

/-- C3: for equal-length inputs with at least two dots and a non-negative
`max_slope` bound `M`, `_slopes` returns a sequence of the same length all
of whose values are finite, non-negative, and at most `M`.  (Proved for
arbitrary inputs, sorted or not, and for an arbitrary elementwise `log2`.) -/
theorem slopes_length_and_bounded (log2 : FVal → FVal) (x y : List FVal) (M : ℚ)
    (hxy : x.length = y.length) (hlen : 2 ≤ x.length) (hM : 0 ≤ M) :
    (_slopes log2 x y (FVal.fin M)).length = x.length ∧
      ∀ v ∈ _slopes log2 x y (FVal.fin M),
        ∃ q, v = FVal.fin q ∧ 0 ≤ q ∧ q ≤ M := by
  have h0 : ¬(x.length = 0 ∨ y.length = 0) := by omega
  have h1 : ¬x.length = 1 := by omega
  unfold _slopes
  rw [if_neg h0, if_neg h1]
  constructor
  · rw [List.length_map, List.length_map, List.length_map,
      slopesPadded_length log2 x y hxy hlen]
  · exact slopes_pipeline_bounded M hM _

/-- Witness for `slopes_length_and_bounded` at a concrete two-dot input. -/
theorem slopes_length_and_bounded_witness :
    (_slopes (fun _ => FVal.nan) [FVal.fin 0, FVal.fin 1] [FVal.fin 1, FVal.fin 2]
        (FVal.fin 5000)).length = 2 ∧
      ∀ v ∈ _slopes (fun _ => FVal.nan) [FVal.fin 0, FVal.fin 1] [FVal.fin 1, FVal.fin 2]
          (FVal.fin 5000),
        ∃ q, v = FVal.fin q ∧ 0 ≤ q ∧ q ≤ 5000 :=
  slopes_length_and_bounded (fun _ => FVal.nan) [FVal.fin 0, FVal.fin 1]
    [FVal.fin 1, FVal.fin 2] 5000 rfl (by decide) (by norm_num)

/-! ## Writer theorems -/

/-- C6: the writer keeps a populated first note field and puts the fixed
application signature in the second; an empty first note field receives the
signature and the second stays empty. -/
theorem writer_notes_rule (note1 : String) :
    (note1 ≠ "" → writerNotes note1 = (note1, "Myotisoft ZCANT")) ∧
      (note1 = "" → writerNotes note1 = ("Myotisoft ZCANT", "")) := by
  constructor
  · intro h
    unfold writerNotes
    rw [if_neg h]
  · intro h
    unfold writerNotes
    rw [if_pos h]

/-- Witness for `writer_notes_rule` at a populated and at an empty note. -/
theorem writer_notes_rule_witness :
    writerNotes "field notes" = ("field notes", "Myotisoft ZCANT") ∧
      writerNotes "" = ("Myotisoft ZCANT", "") :=
  ⟨(writer_notes_rule "field notes").1 (by decide), (writer_notes_rule "").2 rfl⟩

theorem diffQ_cons_cons (x y : ℚ) (rest : List ℚ) :
    diffQ (x :: y :: rest) = (y - x) :: diffQ (y :: rest) := rfl

theorem diffQ_map_mul (c : ℚ) (l : List ℚ) :
    diffQ (l.map (fun t => t * c)) = (diffQ l).map (fun d => d * c) := by
  induction l with
  | nil => rfl
  | cons a t ih =>
    cases t with
    | nil => rfl
    | cons b t' =>
      simp only [List.map_cons] at *
      rw [diffQ_cons_cons, diffQ_cons_cons, ih, List.map_cons]
      congr 1
      ring

/-- C7: the interval body written to the file is the sequence of successive
differences of the time sequence converted to microseconds, each truncated
toward zero (the `astype(int)` cast), not rounded. -/
theorem writer_intervals_spec (times : List ℚ) :
    writerIntervals times = specIntervals times := by
  unfold writerIntervals specIntervals
  rw [diffQ_map_mul]

/-! ## Windowing: sorted-list infrastructure -/

theorem getLastD_default_irrel (l : List ℚ) (h : l ≠ []) (d1 d2 : ℚ) :
    l.getLastD d1 = l.getLastD d2 := by
  cases l with
  | nil => exact absurd rfl h
  | cons a ts => rw [List.getLastD_cons, List.getLastD_cons]

theorem getLastD_mem_cons : ∀ (l : List ℚ) (a : ℚ), l.getLastD a ∈ a :: l
  | [], _ => List.mem_singleton.2 rfl
  | b :: ts, a => by
    rw [List.getLastD_cons]
    exact List.mem_cons_of_mem a (getLastD_mem_cons ts b)

theorem sorted_mem_le_getLastD (l : List ℚ) (hs : List.Sorted (· ≤ ·) l) :
    ∀ x ∈ l, x ≤ l.getLastD 0 := by
  induction l with
  | nil =>
    intro x hx
    cases hx
  | cons a ts ih =>
    rw [List.sorted_cons] at hs
    intro x hx
    rw [List.getLastD_cons]
    cases ts with
    | nil =>
      have hxa := List.mem_singleton.1 hx
      subst hxa
      exact le_refl x
    | cons b ts' =>
      rw [getLastD_default_irrel _ (List.cons_ne_nil _ _) a 0]
      rcases List.mem_cons.1 hx with rfl | hx'
      · exact le_trans (hs.1 b (List.mem_cons_self b ts'))
          (ih hs.2 b (List.mem_cons_self b ts'))
      · exact ih hs.2 x hx'

theorem sorted_take_bisect (l : List ℚ) (x : ℚ) (hs : List.Sorted (· ≤ ·) l) :
    l.take (bisect l x) = l.filter (fun t => decide (t ≤ x)) := by
  induction l with
  | nil => rfl
  | cons a ts ih =>
    rw [List.sorted_cons] at hs
    by_cases ha : a ≤ x
    · rw [bisect, List.countP_cons, if_pos (by simpa using ha), List.take_succ_cons,
        List.filter_cons_of_pos (by simpa using ha)]
      rw [← bisect, ih hs.2]
    · have h0 : (a :: ts).countP (fun t => decide (t ≤ x)) = 0 := by
        rw [List.countP_eq_zero]
        intro u hu
        simp only [decide_eq_true_eq, not_le]
        rcases List.mem_cons.1 hu with rfl | hu'
        · exact lt_of_not_le ha
        · exact lt_of_lt_of_le (lt_of_not_le ha) (hs.1 u hu')
      rw [bisect, h0, List.take_zero]
      symm
      rw [List.filter_eq_nil_iff]
      intro u hu
      simp only [decide_eq_true_eq, not_le]
      rcases List.mem_cons.1 hu with rfl | hu'
      · exact lt_of_not_le ha
      · exact lt_of_lt_of_le (lt_of_not_le ha) (hs.1 u hu')

theorem sorted_drop_bisect (l : List ℚ) (x : ℚ) (hs : List.Sorted (· ≤ ·) l) :
    l.drop (bisect l x) = l.filter (fun t => decide (x < t)) := by
  induction l with
  | nil => rfl
  | cons a ts ih =>
    rw [List.sorted_cons] at hs
    by_cases ha : a ≤ x
    · rw [bisect, List.countP_cons, if_pos (by simpa using ha), List.drop_succ_cons,
        List.filter_cons_of_neg (by simpa using not_lt.2 ha)]
      rw [← bisect, ih hs.2]
    · have h0 : (a :: ts).countP (fun t => decide (t ≤ x)) = 0 := by
        rw [List.countP_eq_zero]
        intro u hu
        simp only [decide_eq_true_eq, not_le]
        rcases List.mem_cons.1 hu with rfl | hu'
        · exact lt_of_not_le ha
        · exact lt_of_lt_of_le (lt_of_not_le ha) (hs.1 u hu')
      rw [bisect, h0, List.drop_zero,
        List.filter_cons_of_pos (by simpa using lt_of_not_le ha)]
      congr 1
      symm
      rw [List.filter_eq_self]
      intro u hu
      simpa using lt_of_lt_of_le (lt_of_not_le ha) (hs.1 u hu)

theorem countP_le_split (s e : ℚ) (hse : s ≤ e) (l : List ℚ) :
    l.countP (fun t => decide (t ≤ e)) =
      l.countP (fun t => decide (t ≤ s)) +
        l.countP (fun t => decide (t ≤ e) && decide (s < t)) := by
  induction l with
  | nil => rfl
  | cons a ts ih =>
    simp only [List.countP_cons, ih]
    by_cases h1 : a ≤ s
    · have h2 : a ≤ e := le_trans h1 hse
      simp [h1, h2, not_lt.2 h1]
      omega
    · by_cases h2 : a ≤ e
      · simp [h1, h2, lt_of_not_le h1]
        omega
      · simp [h1, h2]

/-- The normal-branch slice `self[bisect(times, s) : bisect(times, e)]` of a
sorted list keeps exactly the elements in the half-open window `(s, e]`. -/
theorem sorted_pySlice_bisect (l : List ℚ) (s e : ℚ)
    (hs : List.Sorted (· ≤ ·) l) (hse : s ≤ e) :
    pySlice l (bisect l s) (bisect l e) =
      l.filter (fun t => decide (t ≤ e) && decide (s < t)) := by
  rw [pySlice, sorted_drop_bisect l s hs]
  have hcnt : bisect l e - bisect l s =
      bisect (l.filter (fun t => decide (s < t))) e := by
    rw [bisect, bisect, bisect, List.countP_filter, countP_le_split s e hse l]
    omega
  rw [hcnt, sorted_take_bisect _ e (hs.filter _), List.filter_filter]

theorem pySlice_subset (l : List ℚ) (a b : ℕ) : ∀ x ∈ pySlice l a b, x ∈ l :=
  fun _ hx =>
    ((List.take_sublist _ _).trans (List.drop_sublist _ _)).subset hx

/-! ## Windowing: pad helpers -/

theorem padLeft_times (zc : ZeroCross) (s : ℚ) :
    (padLeft zc s).times =
      if zc.times.length = 0 ∨ s < zc.times.headD 0 then s :: zc.times
      else zc.times := by
  unfold padLeft
  split
  · rfl
  · rfl

theorem padRight_times (zc : ZeroCross) (e : ℚ) :
    (padRight zc e).times =
      if zc.times.getLastD 0 < e then zc.times ++ [e] else zc.times := by
  unfold padRight
  split
  · rfl
  · rfl

theorem padLeft_times_ne_nil (zc : ZeroCross) (s : ℚ) : (padLeft zc s).times ≠ [] := by
  rw [padLeft_times]
  by_cases h : zc.times.length = 0 ∨ s < zc.times.headD 0
  · rw [if_pos h]
    exact List.cons_ne_nil _ _
  · rw [if_neg h]
    intro heq
    exact h (Or.inl (by rw [heq]; rfl))

theorem padLeft_times_of_empty (zc : ZeroCross) (s : ℚ) (h : zc.times = []) :
    (padLeft zc s).times = [s] := by
  rw [padLeft_times, if_pos (Or.inl (by rw [h]; rfl)), h]

theorem padLeft_last_of_ne (zc : ZeroCross) (s : ℚ) (hne : zc.times ≠ []) :
    (padLeft zc s).times.getLastD 0 = zc.times.getLastD 0 := by
  rw [padLeft_times]
  split
  · rw [List.getLastD_cons]
    exact getLastD_default_irrel zc.times hne s 0
  · rfl

theorem padRight_last (zc : ZeroCross) (e : ℚ)
    (hle : zc.times.getLastD 0 ≤ e) : (padRight zc e).times.getLastD 0 = e := by
  rw [padRight_times]
  by_cases h : zc.times.getLastD 0 < e
  · rw [if_pos h, List.getLastD_concat]
  · rw [if_neg h]
    exact le_antisymm hle (not_lt.1 h)

theorem padRight_headD (zc : ZeroCross) (e : ℚ) (hne : zc.times ≠ []) :
    (padRight zc e).times.headD 0 = zc.times.headD 0 := by
  rw [padRight_times]
  split
  · cases htimes : zc.times with
    | nil => exact absurd htimes hne
    | cons a ts => rw [List.cons_append, List.headD_cons, List.headD_cons]
  · rfl

theorem getLastD_mem (l : List ℚ) (h : l ≠ []) : l.getLastD 0 ∈ l := by
  cases l with
  | nil => exact absurd rfl h
  | cons a ts =>
    rw [List.getLastD_cons]
    exact getLastD_mem_cons ts a

theorem windowed_eq (zc : ZeroCross) (s d : ℚ) (h : ¬zc.times.length < 2) :
    zc.windowed s d =
      padRight (padLeft (zc.sliceZC (zc.windowBounds s d).1 (zc.windowBounds s d).2) s)
        (s + d) := by
  unfold ZeroCross.windowed
  rw [if_neg h]

theorem windowBounds_normal (zc : ZeroCross) (s d : ℚ)
    (h : d ≤ zc.times.getLastD 0 - s) :
    zc.windowBounds s d = (bisect zc.times s, bisect zc.times (s + d)) := by
  simp only [ZeroCross.windowBounds]
  rw [if_pos h]

theorem windowBounds_toobig (zc : ZeroCross) (s d : ℚ)
    (h1 : ¬d ≤ zc.times.getLastD 0 - s) (h2 : zc.times.getLastD 0 ≤ d) :
    zc.windowBounds s d = (0, zc.times.length - 1) := by
  simp only [ZeroCross.windowBounds]
  rw [if_neg h1, if_pos h2]

theorem windowBounds_eof (zc : ZeroCross) (s d : ℚ)
    (h1 : ¬d ≤ zc.times.getLastD 0 - s) (h2 : ¬zc.times.getLastD 0 ≤ d) :
    zc.windowBounds s d =
      (bisect zc.times (zc.times.getLastD 0 - d), zc.times.length - 1) := by
  simp only [ZeroCross.windowBounds]
  rw [if_neg h1, if_neg h2]

theorem sliceZC_times (zc : ZeroCross) (a b : ℕ) :
    (zc.sliceZC a b).times = pySlice zc.times a b := rfl

/-- The slice of the normal branch, prepended with the synthetic leading
dot: the padded times are literally `start` consed onto the in-window dots. -/
theorem padLeft_normal_times (zc : ZeroCross) (s d : ℚ)
    (hsort : List.Sorted (· ≤ ·) zc.times) (h0d : 0 ≤ d) :
    (padLeft (zc.sliceZC (bisect zc.times s) (bisect zc.times (s + d))) s).times =
      s :: zc.times.filter (fun t => decide (t ≤ s + d) && decide (s < t)) := by
  have hslice : (zc.sliceZC (bisect zc.times s) (bisect zc.times (s + d))).times =
      zc.times.filter (fun t => decide (t ≤ s + d) && decide (s < t)) := by
    rw [sliceZC_times]
    exact sorted_pySlice_bisect zc.times s (s + d) hsort (by linarith)
  cases hFc : zc.times.filter (fun t => decide (t ≤ s + d) && decide (s < t)) with
  | nil => rw [padLeft_times_of_empty _ s (by rw [hslice, hFc])]
  | cons t F' =>
    have htF : t ∈ zc.times.filter (fun t => decide (t ≤ s + d) && decide (s < t)) := by
      rw [hFc]
      exact List.mem_cons_self t F'
    have hst : s < t := by
      have := (List.mem_filter.1 htF).2
      simp only [Bool.and_eq_true, decide_eq_true_eq] at this
      exact this.2
    rw [padLeft_times, hslice, hFc, if_pos (Or.inr (by rw [List.headD_cons]; exact hst))]

/-- C1 (amended): with at least two dots, sorted times, and non-negative
`start` and `duration`, the window's *last* time equals `start + duration`
in all three branches; the *first* time equals `start` in the normal branch
(`last_time - start ≥ duration`).  In the oversized-window and end-of-file
branches the first time can differ from `start`
(see `windowed_first_time_counterexample`). -/
theorem windowed_boundary_times (zc : ZeroCross) (s d : ℚ)
    (hsort : List.Sorted (· ≤ ·) zc.times) (hlen : 2 ≤ zc.times.length)
    (h0d : 0 ≤ d) :
    (d ≤ zc.times.getLastD 0 - s → (zc.windowed s d).times.headD 0 = s) ∧
      (zc.windowed s d).times.getLastD 0 = s + d := by
  have hnl : ¬zc.times.length < 2 := by omega
  rw [windowed_eq zc s d hnl]
  by_cases hb1 : d ≤ zc.times.getLastD 0 - s
  · -- normal branch
    rw [windowBounds_normal zc s d hb1]
    have hpad := padLeft_normal_times zc s d hsort h0d
    have hlast : (padLeft (zc.sliceZC (bisect zc.times s) (bisect zc.times (s + d))) s).times.getLastD 0
        ≤ s + d := by
      rw [hpad, List.getLastD_cons]
      cases hFc : zc.times.filter (fun t => decide (t ≤ s + d) && decide (s < t)) with
      | nil =>
        rw [List.getLastD_nil]
        exact le_add_of_nonneg_right h0d
      | cons t F' =>
        rw [getLastD_default_irrel _ (List.cons_ne_nil _ _) s 0]
        have hmem : (t :: F').getLastD 0 ∈
            zc.times.filter (fun t => decide (t ≤ s + d) && decide (s < t)) := by
          rw [hFc]
          exact getLastD_mem _ (List.cons_ne_nil _ _)
        have hp := (List.mem_filter.1 hmem).2
        simp only [Bool.and_eq_true, decide_eq_true_eq] at hp
        exact hp.1
    constructor
    · intro _
      rw [padRight_headD _ _ (by rw [hpad]; exact List.cons_ne_nil _ _), hpad,
        List.headD_cons]
    · exact padRight_last _ _ hlast
  · have hlast_lt : zc.times.getLastD 0 < s + d := by
      push_neg at hb1
      linarith
    by_cases hb2 : zc.times.getLastD 0 ≤ d
    · -- window-too-big branch
      rw [windowBounds_toobig zc s d hb1 hb2]
      have hne : (zc.sliceZC 0 (zc.times.length - 1)).times ≠ [] := by
        rw [sliceZC_times, ← List.length_pos, pySlice, List.length_take,
          List.drop_zero]
        omega
      refine ⟨fun hc => absurd hc hb1, ?_⟩
      apply padRight_last
      rw [padLeft_last_of_ne _ s hne]
      have hmem : (zc.sliceZC 0 (zc.times.length - 1)).times.getLastD 0 ∈ zc.times :=
        pySlice_subset zc.times _ _ _ (getLastD_mem _ hne)
      have hle := sorted_mem_le_getLastD zc.times hsort _ hmem
      linarith
    · -- end-of-file branch
      rw [windowBounds_eof zc s d hb1 hb2]
      refine ⟨fun hc => absurd hc hb1, ?_⟩
      cases hz : (zc.sliceZC (bisect zc.times (zc.times.getLastD 0 - d))
          (zc.times.length - 1)).times with
      | nil =>
        apply padRight_last
        rw [padLeft_times_of_empty _ s hz, List.getLastD_cons]
        exact le_add_of_nonneg_right h0d
      | cons t ts =>
        have hne : (zc.sliceZC (bisect zc.times (zc.times.getLastD 0 - d))
            (zc.times.length - 1)).times ≠ [] := by
          rw [hz]
          exact List.cons_ne_nil _ _
        apply padRight_last
        rw [padLeft_last_of_ne _ s hne]
        have hmem : (zc.sliceZC (bisect zc.times (zc.times.getLastD 0 - d))
            (zc.times.length - 1)).times.getLastD 0 ∈ zc.times :=
          pySlice_subset zc.times _ _ _ (getLastD_mem _ hne)
        have hle := sorted_mem_le_getLastD zc.times hsort _ hmem
        linarith

/-- Witness for `windowed_boundary_times` on a normal-branch input. -/
theorem windowed_boundary_times_witness :
    ((ZeroCross.mk [0, 1, 2, 3] [0, 0, 0, 0] none).windowed 1 1).times.headD 0 = 1 ∧
      ((ZeroCross.mk [0, 1, 2, 3] [0, 0, 0, 0] none).windowed 1 1).times.getLastD 0 = 1 + 1 :=
  ⟨(windowed_boundary_times (ZeroCross.mk [0, 1, 2, 3] [0, 0, 0, 0] none) 1 1
      (by decide) (by decide) (by norm_num)).1
      (by norm_num [List.getLastD_cons, List.getLastD_nil]),
    (windowed_boundary_times (ZeroCross.mk [0, 1, 2, 3] [0, 0, 0, 0] none) 1 1
      (by decide) (by decide) (by norm_num)).2⟩

/-- C1 counterexample: `times = [0, 2]`, `start = 1`, `duration = 5` takes
the window-too-big branch and returns times `[0, 6]`, whose first time `0`
differs from `start = 1`. -/
theorem windowed_first_time_counterexample :
    ((ZeroCross.mk [0, 2] [0, 0] none).windowed 1 5).times.headD 0 ≠ 1 := by
  norm_num [ZeroCross.windowed, ZeroCross.windowBounds, ZeroCross.sliceZC, padLeft,
    padRight, bisect, pySlice, List.countP, List.countP.go]

/-- C9: in the normal branch (`last_time - start ≥ duration`, sorted times,
at least two dots, `0 ≤ duration`), the returned times are exactly the
synthetic leading dot at `start`, followed by precisely the original dots
with `start < t ≤ start + duration` (so a dot at exactly `start` is
excluded), followed by the synthetic trailing dot at `start + duration`
when the window ends early — in particular the leading dot is inserted on
every normal-branch call. -/
theorem windowed_normal_exact_dots (zc : ZeroCross) (s d : ℚ)
    (hsort : List.Sorted (· ≤ ·) zc.times) (hlen : 2 ≤ zc.times.length)
    (h0d : 0 ≤ d) (hnorm : d ≤ zc.times.getLastD 0 - s) :
    (zc.windowed s d).times =
      s :: zc.times.filter (fun t => decide (t ≤ s + d) && decide (s < t)) ++
        (if (zc.times.filter (fun t => decide (t ≤ s + d) && decide (s < t))).getLastD s < s + d
          then [s + d] else []) := by
  have hnl : ¬zc.times.length < 2 := by omega
  rw [windowed_eq zc s d hnl, windowBounds_normal zc s d hnorm, padRight_times,
    padLeft_normal_times zc s d hsort h0d, List.getLastD_cons]
  by_cases hc : (zc.times.filter (fun t => decide (t ≤ s + d) && decide (s < t))).getLastD s
      < s + d
  · rw [if_pos hc, if_pos hc, List.cons_append]
  · rw [if_neg hc, if_neg hc, List.append_nil]

/-- Witness for `windowed_normal_exact_dots` on `times = [0,1,2,3]`,
`start = 1`, `duration = 1`. -/
theorem windowed_normal_exact_dots_witness :
    ((ZeroCross.mk [0, 1, 2, 3] [7, 7, 7, 7] none).windowed 1 1).times =
      1 :: [(0 : ℚ), 1, 2, 3].filter (fun t => decide (t ≤ 1 + 1) && decide (1 < t)) ++
        (if ([(0 : ℚ), 1, 2, 3].filter (fun t => decide (t ≤ 1 + 1) && decide (1 < t))).getLastD 1 < 1 + 1
          then [1 + 1] else []) :=
  windowed_normal_exact_dots (ZeroCross.mk [0, 1, 2, 3] [7, 7, 7, 7] none) 1 1
    (by decide) (by decide) (by norm_num) (by norm_num)

theorem padLeft_freqs (zc : ZeroCross) (s : ℚ) :
    (padLeft zc s).freqs =
      if zc.times.length = 0 ∨ s < zc.times.headD 0 then s :: zc.freqs
      else zc.freqs := by
  unfold padLeft
  split
  · rfl
  · rfl

theorem padRight_freqs (zc : ZeroCross) (e : ℚ) :
    (padRight zc e).freqs =
      if zc.times.getLastD 0 < e then zc.freqs ++ [0] else zc.freqs := by
  unfold padRight
  split
  · rfl
  · rfl

theorem padLeft_amplitudes (zc : ZeroCross) (s : ℚ) :
    (padLeft zc s).amplitudes =
      if zc.times.length = 0 ∨ s < zc.times.headD 0 then
        zc.amplitudes.map (fun l => s :: l)
      else zc.amplitudes := by
  unfold padLeft
  split
  · rfl
  · rfl

theorem padRight_amplitudes (zc : ZeroCross) (e : ℚ) :
    (padRight zc e).amplitudes =
      if zc.times.getLastD 0 < e then zc.amplitudes.map (fun l => l ++ [0])
      else zc.amplitudes := by
  unfold padRight
  split
  · rfl
  · rfl

/-- C10: on a signal that carries amplitudes, whenever `windowed` inserts
the synthetic leading dot its amplitude value is the window `start` (the
same placeholder as its frequency), and whenever it appends the synthetic
trailing dot its amplitude value is `0`. -/
theorem windowed_amplitude_pads (zc : ZeroCross) (s d : ℚ) (amps : List ℚ)
    (hlen : 2 ≤ zc.times.length) (hamp : zc.amplitudes = some amps) :
    (((zc.sliceZC (zc.windowBounds s d).1 (zc.windowBounds s d).2).times.length = 0 ∨
        s < (zc.sliceZC (zc.windowBounds s d).1 (zc.windowBounds s d).2).times.headD 0) →
      ∃ l, (zc.windowed s d).amplitudes = some (s :: l)) ∧
      ((padLeft (zc.sliceZC (zc.windowBounds s d).1 (zc.windowBounds s d).2) s).times.getLastD 0
          < s + d →
        ∃ l, (zc.windowed s d).amplitudes = some l ∧ l.getLastD 0 = 0) := by
  have hnl : ¬zc.times.length < 2 := by omega
  rw [windowed_eq zc s d hnl]
  have hamp1 : (zc.sliceZC (zc.windowBounds s d).1 (zc.windowBounds s d).2).amplitudes =
      some (pySlice amps (zc.windowBounds s d).1 (zc.windowBounds s d).2) := by
    show zc.amplitudes.map _ = _
    rw [hamp, Option.map_some']
  constructor
  · intro hc
    rw [padRight_amplitudes, padLeft_amplitudes, if_pos hc, hamp1, Option.map_some']
    by_cases hr : (padLeft (zc.sliceZC (zc.windowBounds s d).1 (zc.windowBounds s d).2)
        s).times.getLastD 0 < s + d
    · rw [if_pos hr, Option.map_some']
      exact ⟨_, by rw [List.cons_append]⟩
    · rw [if_neg hr]
      exact ⟨_, rfl⟩
  · intro hc
    rw [padRight_amplitudes, if_pos hc, padLeft_amplitudes, hamp1]
    by_cases hl : (zc.sliceZC (zc.windowBounds s d).1 (zc.windowBounds s d).2).times.length = 0 ∨
        s < (zc.sliceZC (zc.windowBounds s d).1 (zc.windowBounds s d).2).times.headD 0
    · rw [if_pos hl, Option.map_some', Option.map_some']
      exact ⟨_, rfl, List.getLastD_concat _ _ _⟩
    · rw [if_neg hl, Option.map_some']
      exact ⟨_, rfl, List.getLastD_concat _ _ _⟩

/-- Witness for `windowed_amplitude_pads`: `times = [0,10,20,30]`,
`amps = [1,2,3,4]`, `start = 5`, `duration = 11` (both pads fire and the
resulting amplitudes are `[5, 2, 0]`). -/
theorem windowed_amplitude_pads_witness :
    (∃ l, ((ZeroCross.mk [0, 10, 20, 30] [40, 41, 42, 43] (some [1, 2, 3, 4])).windowed
        5 11).amplitudes = some (5 :: l)) ∧
      ∃ l, (((ZeroCross.mk [0, 10, 20, 30] [40, 41, 42, 43] (some [1, 2, 3, 4])).windowed
          5 11).amplitudes = some l) ∧ l.getLastD 0 = 0 :=
  ⟨(windowed_amplitude_pads (ZeroCross.mk [0, 10, 20, 30] [40, 41, 42, 43] (some [1, 2, 3, 4]))
      5 11 [1, 2, 3, 4] (by decide) rfl).1
      (by norm_num [ZeroCross.sliceZC, ZeroCross.windowBounds, bisect, pySlice,
        List.countP, List.countP.go]),
    (windowed_amplitude_pads (ZeroCross.mk [0, 10, 20, 30] [40, 41, 42, 43] (some [1, 2, 3, 4]))
      5 11 [1, 2, 3, 4] (by decide) rfl).2
      (by norm_num [padLeft, ZeroCross.sliceZC, ZeroCross.windowBounds, bisect, pySlice,
        List.countP, List.countP.go])⟩

theorem sliceZC_freqs (zc : ZeroCross) (a b : ℕ) :
    (zc.sliceZC a b).freqs = pySlice zc.freqs a b := rfl

theorem padLeft_length_eq (zc : ZeroCross) (s : ℚ)
    (h : zc.times.length = zc.freqs.length) :
    (padLeft zc s).times.length = (padLeft zc s).freqs.length := by
  rw [padLeft_times, padLeft_freqs]
  by_cases hc : zc.times.length = 0 ∨ s < zc.times.headD 0
  · rw [if_pos hc, if_pos hc, List.length_cons, List.length_cons, h]
  · rw [if_neg hc, if_neg hc, h]

/-- C2 (amended): in the window-too-big branch (`duration ≥ last_time` and
the normal branch not applying), `windowed` selects all dots *except the
last* (the slice is `self[0 : len-1]`): every original `(time, freq)` dot
but the last is contained in the returned window.  The last dot itself is
dropped (see `windowed_toobig_counterexample`). -/
theorem windowed_toobig_keeps_all_but_last (zc : ZeroCross) (s d : ℚ)
    (hlen : 2 ≤ zc.times.length) (hlf : zc.times.length = zc.freqs.length)
    (hb1 : ¬d ≤ zc.times.getLastD 0 - s) (hb2 : zc.times.getLastD 0 ≤ d) :
    ∀ p ∈ zc.times.dropLast.zip zc.freqs.dropLast,
      p ∈ (zc.windowed s d).times.zip (zc.windowed s d).freqs := by
  have hnl : ¬zc.times.length < 2 := by omega
  rw [windowed_eq zc s d hnl, windowBounds_toobig zc s d hb1 hb2]
  have ht1 : (zc.sliceZC 0 (zc.times.length - 1)).times = zc.times.dropLast := by
    rw [sliceZC_times, pySlice, List.drop_zero, Nat.sub_zero, ← List.dropLast_eq_take]
  have hf1 : (zc.sliceZC 0 (zc.times.length - 1)).freqs = zc.freqs.dropLast := by
    rw [sliceZC_freqs, pySlice, List.drop_zero, Nat.sub_zero, hlf,
      ← List.dropLast_eq_take]
  have hlen1 : (zc.sliceZC 0 (zc.times.length - 1)).times.length =
      (zc.sliceZC 0 (zc.times.length - 1)).freqs.length := by
    rw [ht1, hf1, List.length_dropLast, List.length_dropLast, hlf]
  intro p hp
  have h2 : p ∈ (padLeft (zc.sliceZC 0 (zc.times.length - 1)) s).times.zip
      (padLeft (zc.sliceZC 0 (zc.times.length - 1)) s).freqs := by
    rw [padLeft_times, padLeft_freqs]
    by_cases hc : (zc.sliceZC 0 (zc.times.length - 1)).times.length = 0 ∨
        s < (zc.sliceZC 0 (zc.times.length - 1)).times.headD 0
    · rw [if_pos hc, if_pos hc, ht1, hf1, List.zip_cons_cons]
      exact List.mem_cons_of_mem _ hp
    · rw [if_neg hc, if_neg hc, ht1, hf1]
      exact hp
  rw [padRight_times, padRight_freqs]
  by_cases hc2 : (padLeft (zc.sliceZC 0 (zc.times.length - 1)) s).times.getLastD 0 < s + d
  · rw [if_pos hc2, if_pos hc2, List.zip_append (padLeft_length_eq _ s hlen1)]
    exact List.mem_append.2 (Or.inl h2)
  · rw [if_neg hc2, if_neg hc2]
    exact h2

/-- Witness for `windowed_toobig_keeps_all_but_last`: with
`times = [0, 1]`, `freqs = [5, 6]`, `start = 0`, `duration = 2`, the first
dot `(0, 5)` is kept by the window. -/
theorem windowed_toobig_keeps_all_but_last_witness :
    ((0 : ℚ), (5 : ℚ)) ∈
      ((ZeroCross.mk [0, 1] [5, 6] none).windowed 0 2).times.zip
        ((ZeroCross.mk [0, 1] [5, 6] none).windowed 0 2).freqs :=
  windowed_toobig_keeps_all_but_last (ZeroCross.mk [0, 1] [5, 6] none) 0 2
    (by decide) (by decide)
    (by norm_num [List.getLastD_cons, List.getLastD_nil])
    (by norm_num [List.getLastD_cons, List.getLastD_nil])
    (0, 5) (by decide)

/-- C2 counterexample: `times = [0, 1]`, `start = 0`, `duration = 2` takes
the window-too-big branch, but the returned window does not contain the
last original dot — its time `1` does not even occur among the returned
times (`[0, 2]`). -/
theorem windowed_toobig_counterexample :
    ¬((1 : ℚ) ∈ ((ZeroCross.mk [0, 1] [5, 6] none).windowed 0 2).times) := by
  norm_num [ZeroCross.windowed, ZeroCross.windowBounds, ZeroCross.sliceZC, padLeft,
    padRight, bisect, pySlice, List.countP, List.countP.go]

end ZCANT
